import Mathlib

/-!
Verification of the health-data unification pipeline.

Shallow embedding of the pipeline's core functions:
- `deduplicate_apple_health_steps` (src/load_daily_summary.py, src/create_daily_summary.py)
- `aggregate_daily_data` (src/load_daily_summary.py)
- `get_unified_daily_summary` (src/load_daily_summary.py)
- `parse_strong_workouts` and `load_workouts_to_db` (src/load_workout_details.py)
- `load_data_to_db` (src/load_daily_summary.py)
- the master pipeline `main` (src/run_pipeline.py)

Timestamps are modelled as integers (minutes); the calendar day of a
timestamp is its floor-division by 1440.  Numeric cell values that pandas
represents as possibly-NaN floats are modelled as `Option Rat` (NaN = none).
-/

namespace HealthPipeline

/-! ## Interval deduplicator (`deduplicate_apple_health_steps`) -/

/-- One step-count record: a row of the DataFrame built from the parsed
Apple-Health `Record` elements (columns startDate, endDate, value, sourceName). -/
structure Sample where
  startDate : Int
  endDate : Int
  value : Rat
  sourceName : String
deriving DecidableEq, Repr

/-- `charsStartWith p s` : the char list `p` is an initial segment of `s`. -/
def charsStartWith : List Char → List Char → Bool
  | [], _ => true
  | _ :: _, [] => false
  | p :: ps, c :: cs => p == c && charsStartWith ps cs

/-- `charsContain pat s` : `pat` occurs contiguously somewhere in `s`. -/
def charsContain (pat : List Char) : List Char → Bool
  | [] => charsStartWith pat []
  | c :: cs => charsStartWith pat (c :: cs) || charsContain pat cs

/-- Python's `pat in s` substring test. -/
def containsSub (pat s : String) : Bool := charsContain pat.data s.data

/-- `df['priority'] = df['sourceName'].apply(lambda x: 1 if 'Apple Watch' in x else 2)` -/
def priority (s : Sample) : Nat := if containsSub "Apple Watch" s.sourceName then 1 else 2

/-- Sort key of `df.sort_values(by=['startDate', 'priority'])`:
lexicographic on (startDate, priority). -/
def sampleLE (a b : Sample) : Prop :=
  a.startDate < b.startDate ∨ (a.startDate = b.startDate ∧ priority a ≤ priority b)

instance : DecidableRel sampleLE := fun a b => by
  unfold sampleLE; infer_instance

/-- The loop guard `row['startDate'] >= last_end_time`; `none` models the
initial `pd.Timestamp.min` sentinel, which precedes every real timestamp. -/
def acceptRec : Option Int → Int → Bool
  | none, _ => true
  | some e, st => decide (e ≤ st)

/-- The sweep loop of `deduplicate_apple_health_steps`: keep a record iff its
start is at or after the end of the last kept record. -/
def sweep : List Sample → Option Int → List Sample
  | [], _ => []
  | s :: rest, last =>
    if acceptRec last s.startDate then s :: sweep rest (some s.endDate)
    else sweep rest last

/-- `deduplicate_apple_health_steps(records)`: sort by (startDate, priority),
then sweep chronologically keeping non-overlapping records. -/
def deduplicate_apple_health_steps (records : List Sample) : List Sample :=
  sweep (List.insertionSort sampleLE records) none

/-! ## Daily aggregator (`aggregate_daily_data`) -/

/-- A record handed to `aggregate_daily_data`: an end timestamp and a value
already passed through `pd.to_numeric(..., errors='coerce')`
(`none` = NaN, dropped by `df.dropna()`). -/
structure ARecord where
  endDate : Int
  value : Option Rat
deriving DecidableEq, Repr

/-- `astype(int)` on a float column: truncation toward zero. -/
def truncQ (q : Rat) : Int := q.num.tdiv (q.den : Int)

/-- Calendar day of a timestamp (minutes), floor division. -/
def dayOf (t : Int) : Int := Int.ediv t 1440

/-- Rows surviving `dropna`, tagged with the calendar day of their end date. -/
def cleanRecords (records : List ARecord) : List (Int × Rat) :=
  records.filterMap (fun r => r.value.map (fun v => (dayOf r.endDate, v)))

/-- The per-day sum computed by `resample('D').sum()` for day `d`. -/
def daySum (records : List ARecord) (d : Int) : Rat :=
  (((cleanRecords records).filter (fun p => decide (p.1 = d))).map (fun p => p.2)).sum

/-- `aggregate_daily_data(records_list, col)`: coerce values, drop NaN rows,
sum per calendar day of the end timestamp over the full day range
(`resample('D')`), keep days with sum `> 0`, truncate sums to ints. -/
def aggregate_daily_data (records : List ARecord) : List (Int × Int) :=
  match cleanRecords records with
  | [] => []
  | c :: cs =>
    let lo := cs.foldl (fun a p => min a p.1) c.1
    let hi := cs.foldl (fun a p => max a p.1) c.1
    (List.range (hi - lo + 1).toNat).filterMap (fun i =>
      if 0 < daySum records (lo + Int.ofNat i) then
        some (lo + Int.ofNat i, truncQ (daySum records (lo + Int.ofNat i)))
      else none)

/-- View of a deduplicated step record as an aggregator input row. -/
def sampleRecord (s : Sample) : ARecord := { endDate := s.endDate, value := some s.value }

/-- The C2 scenario's phone sample: 10:00-10:05 (minutes 600-605), 50 steps. -/
def phoneSample : Sample :=
  { startDate := 600, endDate := 605, value := 50, sourceName := "PJ iPhone" }

/-- The C2 scenario's watch sample: 10:02-10:08 (minutes 602-608), 80 steps. -/
def watchSample : Sample :=
  { startDate := 602, endDate := 608, value := 80, sourceName := "Apple Watch" }

/-- The C5 counterexample record: a fractional value whose daily sum is in (0, 1). -/
def fracRecord : ARecord := { endDate := 0, value := some (1 / 2) }

/-! ## Effort (RPE) extraction (`parse_strong_workouts`)

The note pattern searched by `re.findall(r'Set\s(\d+)\sRPE\s=\s(\d+\.?\d*)', note, re.IGNORECASE)`
is embedded as a concrete character-level matcher. -/

/-- `\s` : a single whitespace character. -/
def isSpaceC (c : Char) : Bool :=
  c == ' ' || c == '\t' || c == '\n' || c == '\r' || c == '\x0b' || c == '\x0c'

/-- Match a literal fragment case-insensitively, returning the remaining input. -/
def matchCI : List Char → List Char → Option (List Char)
  | [], s => some s
  | _ :: _, [] => none
  | p :: ps, c :: cs => if p.toLower == c.toLower then matchCI ps cs else none

/-- Consume one `\s` character. -/
def matchSpaceC : List Char → Option (List Char)
  | [] => none
  | c :: cs => if isSpaceC c then some cs else none

/-- Greedily consume a (possibly empty) run of decimal digits. -/
def takeDigits : List Char → List Char × List Char
  | [] => ([], [])
  | c :: cs =>
    if c.isDigit then
      let p := takeDigits cs
      (c :: p.1, p.2)
    else ([], c :: cs)

/-- Python `int()` of a digit string. -/
def digitsToNat (ds : List Char) : Nat :=
  ds.foldl (fun a c => a * 10 + (c.toNat - '0'.toNat)) 0

/-- Python `float()` of the captured `\d+\.?\d*` group, as an exact rational. -/
def ratOfDigits (intDs fracDs : List Char) : Rat :=
  (digitsToNat intDs : Rat) + (digitsToNat fracDs : Rat) / ((10 : Rat) ^ fracDs.length)

/-- Try to match `Set\s(\d+)\sRPE\s=\s(\d+\.?\d*)` (case-insensitive) at the head
of the input; on success return the captures `(N, V)` and the rest of the input. -/
def matchSetRpeAt (s : List Char) : Option ((Nat × Rat) × List Char) :=
  match matchCI ['S', 'e', 't'] s with
  | none => none
  | some r1 =>
    match matchSpaceC r1 with
    | none => none
    | some r2 =>
      match takeDigits r2 with
      | ([], _) => none
      | (d :: ds, r3) =>
        match matchSpaceC r3 with
        | none => none
        | some r4 =>
          match matchCI ['R', 'P', 'E'] r4 with
          | none => none
          | some r5 =>
            match matchSpaceC r5 with
            | none => none
            | some r6 =>
              match r6 with
              | '=' :: r7 =>
                match matchSpaceC r7 with
                | none => none
                | some r8 =>
                  match takeDigits r8 with
                  | ([], _) => none
                  | (n :: ns, r9) =>
                    match r9 with
                    | '.' :: r10 =>
                      let p := takeDigits r10
                      some ((digitsToNat (d :: ds), ratOfDigits (n :: ns) p.1), p.2)
                    | _ => some ((digitsToNat (d :: ds), ratOfDigits (n :: ns) []), r9)
              | _ => none

/-- `re.findall`: scan left to right, collecting non-overlapping matches.
`fuel` bounds the recursion; each step consumes at least one character,
so `fuel = length of the input` always suffices. -/
def findAllSetRpe (fuel : Nat) (s : List Char) : List (Nat × Rat) :=
  match fuel, s with
  | 0, _ => []
  | _, [] => []
  | fuel + 1, c :: cs =>
    match matchSetRpeAt (c :: cs) with
    | some (m, rest) => m :: findAllSetRpe fuel rest
    | none => findAllSetRpe fuel cs

/-- All `Set N RPE = V` matches of a note string, in order. -/
def noteMatches (note : String) : List (Nat × Rat) :=
  findAllSetRpe note.data.length note.data

/-- The `rpe_from_note_dict` built by repeated assignment: a later match for the
same set number overwrites an earlier one. -/
def noteDict (ms : List (Nat × Rat)) (n : Nat) : Option Rat :=
  ms.foldl (fun acc m => if m.1 = n then some m.2 else acc) none

/-- A cleaned row of the Strong CSV after `dropna(subset=['Date', 'Exercise Name',
'Set Order'])` and `Set Order.astype(int)`; `Weight`, `Reps`, `RPE` may still be
NaN (`none`) and `Notes` may be missing. -/
structure SetRow where
  date : Int
  exerciseName : String
  setOrder : Nat
  weight : Option Rat
  reps : Option Rat
  rpe : Option Rat
  notes : Option String
deriving DecidableEq, Repr

/-- A processed row: the original fields plus the computed `final_rpe`. -/
structure ProcRow where
  base : SetRow
  final_rpe : Option Rat
deriving DecidableEq, Repr

/-- `group['Notes'].dropna().unique()[0]` if any non-null note exists, else `""`:
the first non-null note of the exercise group. -/
def groupNote (g : List SetRow) : String :=
  ((g.filterMap SetRow.notes).head?).getD ""

/-- The per-group loop body of `parse_strong_workouts`: compute `final_rpe` for
every set of one `(Date, Exercise Name)` group. -/
def processGroup (g : List SetRow) : List ProcRow :=
  let dict := noteMatches (groupNote g)
  g.map (fun r =>
    let fr :=
      match r.rpe with
      | some v => if 0 < v then some v else noteDict dict r.setOrder
      | none => noteDict dict r.setOrder
    { base := r, final_rpe := fr })

/-- Distinct keys in order of first occurrence, fuelled recursion (each step
strictly shrinks the list, so `fuel = length` suffices). -/
def uniqueKeysAux {α : Type} [DecidableEq α] : Nat → List α → List α
  | 0, _ => []
  | _, [] => []
  | n + 1, k :: ks => k :: uniqueKeysAux n (ks.filter (fun x => decide (x ≠ k)))

/-- Distinct keys in order of first occurrence (the grouping keys of
`df.groupby`; the claims below are insensitive to the key order). -/
def uniqueKeys {α : Type} [DecidableEq α] (l : List α) : List α :=
  uniqueKeysAux l.length l

/-- The `groupby(['Date', 'Exercise Name'])` key of a row. -/
def setKey (r : SetRow) : Int × String := (r.date, r.exerciseName)

/-- `parse_strong_workouts`: group the cleaned rows by (date, exercise) and
process each group, concatenating the processed rows. -/
def parse_strong_workouts (rows : List SetRow) : List ProcRow :=
  (uniqueKeys (rows.map setKey)).flatMap
    (fun k => processGroup (rows.filter (fun r => decide (setKey r = k))))

/-- Modelled from the spec (§4.4): the effort-precedence formula the claim
states, per set: an explicit strictly positive value wins, otherwise the
group-note match for the set order, otherwise absent. -/
def effortSpec (note : String) (ord : Nat) (explicit : Option Rat) : Option Rat :=
  match explicit with
  | some v => if 0 < v then some v else noteDict (noteMatches note) ord
  | none => noteDict (noteMatches note) ord

/-- The C3 scenario row: explicit effort 0, note giving set 2 an effort of 7.5. -/
def scenarioRow : SetRow :=
  { date := 0, exerciseName := "Squat", setOrder := 2, weight := some 100,
    reps := some 5, rpe := some 0, notes := some "Set 2 RPE = 7.5" }

/-! ## Daily merger (`get_unified_daily_summary`) -/

/-- One date-keyed row of the Apple Health daily table (outer merge of the
steps and energy daily aggregates, so either side may be absent). -/
structure AppleRow where
  steps : Option Int
  energy : Option Int
deriving DecidableEq, Repr

/-- One date-keyed row of the concatenated MacroFactor table; numeric cells
may be NaN (`none`). -/
structure MacroRow where
  calories : Option Rat
  protein : Option Rat
  fat : Option Rat
  carbs : Option Rat
deriving DecidableEq, Repr

/-- One date-keyed row of the Strong daily-volume table. -/
structure StrongRow where
  volume : Int
deriving DecidableEq, Repr

/-- `pd.merge(l, r, on='Date', how='outer')`: every left row joined with each
matching right row (or with an absent right side), followed by the right rows
whose date never occurs on the left. -/
def mergeOuter {α β : Type} (l : List (Int × α)) (r : List (Int × β)) :
    List (Int × Option α × Option β) :=
  (l.flatMap (fun p =>
    match r.filter (fun q => decide (q.1 = p.1)) with
    | [] => [(p.1, some p.2, none)]
    | m :: ms => (m :: ms).map (fun q => (p.1, some p.2, some q.2))))
  ++ ((r.filter (fun q => !(l.any (fun p => decide (p.1 = q.1))))).map
      (fun q => (q.1, none, some q.2)))

/-- A fully filled daily-summary row (after `fillna(0)`), as loaded into the
`daily_summaries` table. -/
structure DailySummaryRow where
  date : Int
  total_steps : Rat
  active_energy_kcal : Rat
  calories_kcal : Rat
  protein_g : Rat
  fat_g : Rat
  carbs_g : Rat
  strength_volume : Rat
deriving DecidableEq, Repr

/-- The `sort_values(by='Date', ascending=False)` order. -/
def dateDesc (x y : DailySummaryRow) : Prop := y.date ≤ x.date

instance : DecidableRel dateDesc := fun x y => by
  unfold dateDesc; infer_instance

/-- The final `fillna(0)` step of `get_unified_daily_summary`, flattening one
merged row into a fully filled `DailySummaryRow`. -/
def mkSummaryRow (p : Int × Option (Option AppleRow × Option MacroRow) × Option StrongRow) :
    DailySummaryRow :=
  let a : Option AppleRow := p.2.1.bind (fun x => x.1)
  let m : Option MacroRow := p.2.1.bind (fun x => x.2)
  let stg : Option StrongRow := p.2.2
  { date := p.1,
    total_steps := ((a.bind AppleRow.steps).map (fun z => (z : Rat))).getD 0,
    active_energy_kcal := ((a.bind AppleRow.energy).map (fun z => (z : Rat))).getD 0,
    calories_kcal := (m.bind MacroRow.calories).getD 0,
    protein_g := (m.bind MacroRow.protein).getD 0,
    fat_g := (m.bind MacroRow.fat).getD 0,
    carbs_g := (m.bind MacroRow.carbs).getD 0,
    strength_volume := ((stg.map StrongRow.volume).map (fun z => (z : Rat))).getD 0 }

/-- `get_unified_daily_summary`: outer-merge the Apple table with the
MacroFactor table (if non-empty), then with the Strong table (if non-empty),
sort by date descending and fill all missing cells with 0. -/
def get_unified_daily_summary (apple : List (Int × AppleRow)) (mf : List (Int × MacroRow))
    (strong : List (Int × StrongRow)) : List DailySummaryRow :=
  let s1 : List (Int × Option AppleRow × Option MacroRow) :=
    if mf.isEmpty then apple.map (fun p => (p.1, some p.2, none))
    else mergeOuter apple mf
  let s2 : List (Int × Option (Option AppleRow × Option MacroRow) × Option StrongRow) :=
    if strong.isEmpty then s1.map (fun p => (p.1, some p.2, none))
    else mergeOuter s1 strong
  List.insertionSort dateDesc (s2.map mkSummaryRow)

/-! ## Workout reconciler (`load_workouts_to_db`) -/

/-- A parsed Apple Health workout session. -/
structure Workout where
  start_date : Int
  end_date : Int
  workout_type : String
  duration_mins : Rat
  total_distance : Rat
  total_energy_burned : Rat
deriving DecidableEq, Repr

/-- A persisted row of the `workouts` table. -/
structure WorkoutRow where
  workout_id : Nat
  start_date : Int
  end_date : Int
  workout_type : String
  duration_mins : Rat
  total_distance : Rat
  total_energy_burned : Rat
deriving DecidableEq, Repr

/-- A fresh surrogate id for an inserted session. -/
def freshId (tbl : List WorkoutRow) : Nat :=
  tbl.foldl (fun a r => max a r.workout_id) 0 + 1

/-- `SELECT 1 FROM workouts WHERE start_date = %s AND workout_type = %s`. -/
def workoutKeyMatch (r : WorkoutRow) (w : Workout) : Bool :=
  decide (r.start_date = w.start_date) && decide (r.workout_type = w.workout_type)

/-- `INSERT INTO workouts (...)`. -/
def insertWorkout (tbl : List WorkoutRow) (w : Workout) : List WorkoutRow :=
  tbl ++ [{ workout_id := freshId tbl, start_date := w.start_date, end_date := w.end_date,
            workout_type := w.workout_type, duration_mins := w.duration_mins,
            total_distance := w.total_distance,
            total_energy_burned := w.total_energy_burned }]

/-- One iteration of the Apple-workout loading loop: insert only when no row
matches (start_date, workout_type). -/
def loadAppleStep (tbl : List WorkoutRow) (w : Workout) : List WorkoutRow :=
  if tbl.any (fun r => workoutKeyMatch r w) then tbl else insertWorkout tbl w

/-- The Apple Health section of `load_workouts_to_db`. -/
def load_apple_workouts (tbl : List WorkoutRow) (ws : List Workout) : List WorkoutRow :=
  ws.foldl loadAppleStep tbl

/-- A persisted row of the `workout_details` table. -/
structure DetailRow where
  workout_id : Nat
  exercise_name : String
  set_order : Nat
  weight : Option Rat
  reps : Option Rat
  rpe : Option Rat
deriving DecidableEq, Repr

/-- The fixed session type used to locate Strong parents. -/
def strengthType : String := "TraditionalStrengthTraining"

/-- `SELECT workout_id FROM workouts WHERE start_date = %s AND workout_type =
'TraditionalStrengthTraining'` with `fetchone()`: first matching row's id. -/
def findSession (wt : List WorkoutRow) (d : Int) : Option Nat :=
  (wt.find? (fun r => decide (r.start_date = d) && decide (r.workout_type = strengthType))).map
    (fun r => r.workout_id)

/-- The upsert uniqueness key of a detail row. -/
def detailKey (r : DetailRow) : Nat × String × Nat :=
  (r.workout_id, r.exercise_name, r.set_order)

/-- The `WHERE workout_id = %s AND exercise_name = %s AND set_order = %s` clause. -/
def detailMatch (wid : Nat) (s : ProcRow) (r : DetailRow) : Bool :=
  decide (r.workout_id = wid) && decide (r.exercise_name = s.base.exerciseName) &&
    decide (r.set_order = s.base.setOrder)

/-- The row inserted when the update matched nothing. -/
def newDetail (wid : Nat) (s : ProcRow) : DetailRow :=
  { workout_id := wid, exercise_name := s.base.exerciseName, set_order := s.base.setOrder,
    weight := s.base.weight, reps := s.base.reps, rpe := s.final_rpe }

/-- `UPDATE workout_details SET weight, reps, rpe WHERE (key)`; if the update
matched zero rows (`cur.rowcount == 0`), insert a new row instead. -/
def upsertDetail (dt : List DetailRow) (wid : Nat) (s : ProcRow) : List DetailRow :=
  if dt.any (detailMatch wid s) then
    dt.map (fun r =>
      if detailMatch wid s r then
        { r with weight := s.base.weight, reps := s.base.reps, rpe := s.final_rpe }
      else r)
  else dt ++ [newDetail wid s]

/-- `strong_df.groupby('start_date')`: the per-date groups of processed rows
(the claims below are insensitive to the group order). -/
def strongGroups (rows : List ProcRow) : List (Int × List ProcRow) :=
  (uniqueKeys (rows.map (fun r => r.base.date))).map
    (fun d => (d, rows.filter (fun r => decide (r.base.date = d))))

/-- One iteration of the Strong-group loop: look up the parent session; if it
is absent the whole group is skipped, otherwise upsert each set and count the
session as processed. -/
def loadGroupStep (wt : List WorkoutRow) (acc : List DetailRow × Nat)
    (g : Int × List ProcRow) : List DetailRow × Nat :=
  match findSession wt g.1 with
  | none => acc
  | some wid => (g.2.foldl (fun d s => upsertDetail d wid s) acc.1, acc.2 + 1)

/-- The Strong section of `load_workouts_to_db`: returns the final
`workout_details` table and `strong_sessions_processed`. -/
def loadStrongDetails (wt : List WorkoutRow) (dt : List DetailRow)
    (gs : List (Int × List ProcRow)) : List DetailRow × Nat :=
  gs.foldl (loadGroupStep wt) (dt, 0)

/-! ## Daily-summary upsert (`load_data_to_db`) -/

/-- One `execute_values` row's effect under
`INSERT ... ON CONFLICT (date) DO UPDATE SET <all numeric fields> = EXCLUDED.<...>`:
replace every field of the row with the conflicting date, else append. -/
def upsertDaily (tbl : List DailySummaryRow) (row : DailySummaryRow) : List DailySummaryRow :=
  if tbl.any (fun r => decide (r.date = row.date)) then
    tbl.map (fun r => if r.date = row.date then row else r)
  else tbl ++ [row]

/-- `load_data_to_db(df)`: upsert every row of the unified summary. -/
def load_data_to_db (tbl : List DailySummaryRow) (rows : List DailySummaryRow) :
    List DailySummaryRow :=
  rows.foldl upsertDaily tbl

/-! ## Master pipeline (`run_pipeline.main`) -/

namespace PipelineRun

/-- The facts about one run that determine the pipeline's control flow:
which stages raise, whether the caught database operations fail, and whether
there is anything to load. -/
structure Env where
  hasNewFiles : Bool
  dailyMergeRaises : Bool
  dailySummaryNonempty : Bool
  dailyDbFails : Bool
  workoutDataNonempty : Bool
  workoutDbFails : Bool
  recordRunDbFails : Bool
deriving DecidableEq, Repr

/-- The persistent database state the run mutates. -/
structure St where
  dailyCommitted : Bool
  workoutsCommitted : Bool
  watermarks : List Int
deriving DecidableEq, Repr

/-- An exception that escapes `main` (the process crashes). -/
inductive Failure where
  | unhandled
deriving DecidableEq, Repr

/-- `load_data_to_db`: the whole body is wrapped in `try/except`, so a database
failure is caught and logged; the transaction is simply never committed. -/
def load_data_to_db (env : Env) (st : St) : St :=
  if env.dailyDbFails then st else { st with dailyCommitted := true }

/-- `process_and_load_daily_summary`: the merge stage is not guarded, so an
exception there escapes; otherwise the (self-guarding) load runs. -/
def process_and_load_daily_summary (env : Env) (st : St) : Except (Failure × St) St :=
  if env.dailyMergeRaises then Except.error (Failure.unhandled, st)
  else Except.ok (if env.dailySummaryNonempty then load_data_to_db env st else st)

/-- `load_workouts_to_db`: also fully wrapped in `try/except`. -/
def load_workouts_to_db (env : Env) (st : St) : St :=
  if env.workoutDbFails then st else { st with workoutsCommitted := true }

/-- `process_and_load_workout_details`: its parsers catch their own errors. -/
def process_and_load_workout_details (env : Env) (st : St) : St :=
  if env.workoutDataNonempty then load_workouts_to_db env st else st

/-- `record_successful_run`: append the current timestamp to `pipeline_runs`;
its own database errors are caught. -/
def record_successful_run (env : Env) (now : Int) (st : St) : St :=
  if env.recordRunDbFails then st else { st with watermarks := st.watermarks ++ [now] }

/-- `run_pipeline.main`: if any export file is newer than the watermark, run
both sub-pipelines and then record a successful run. -/
def main (env : Env) (now : Int) (st : St) : Except (Failure × St) St :=
  if env.hasNewFiles then
    match process_and_load_daily_summary env st with
    | Except.error e => Except.error e
    | Except.ok st1 =>
      Except.ok (record_successful_run env now (process_and_load_workout_details env st1))
  else Except.ok st

/-- The C6 counterexample environment: new files, a clean merge, but the
daily-summary database transaction fails. -/
def envDbFail : Env :=
  { hasNewFiles := true, dailyMergeRaises := false, dailySummaryNonempty := true,
    dailyDbFails := true, workoutDataNonempty := false, workoutDbFails := false,
    recordRunDbFails := false }

end PipelineRun

/-! ## Concrete fixtures used by witnesses -/

/-- A concrete Apple Health session. -/
def demoWorkout : Workout :=
  { start_date := 100, end_date := 160, workout_type := "Running",
    duration_mins := 60, total_distance := 10, total_energy_burned := 500 }

/-- A concrete strength-training session row. -/
def demoStrengthRow : WorkoutRow :=
  { workout_id := 1, start_date := 200, end_date := 260,
    workout_type := "TraditionalStrengthTraining", duration_mins := 60,
    total_distance := 0, total_energy_burned := 300 }

/-- A concrete running session row (not a strength session). -/
def demoRunningRow : WorkoutRow :=
  { workout_id := 2, start_date := 300, end_date := 360, workout_type := "Running",
    duration_mins := 60, total_distance := 10, total_energy_burned := 500 }

/-- A concrete processed Strong set at the strength session's date. -/
def demoProcRow : ProcRow :=
  { base := { date := 200, exerciseName := "Bench Press", setOrder := 1,
              weight := some 80, reps := some 5, rpe := some 8, notes := none },
    final_rpe := some 8 }

/-- A concrete processed Strong set at a date with no strength session. -/
def orphanProcRow : ProcRow :=
  { base := { date := 300, exerciseName := "Squat", setOrder := 1,
              weight := some 100, reps := some 5, rpe := none, notes := none },
    final_rpe := none }

/-- A concrete daily-summary row. -/
def demoSummaryRow : DailySummaryRow :=
  { date := 10, total_steps := 1000, active_energy_kcal := 300, calories_kcal := 2000,
    protein_g := 150, fat_g := 60, carbs_g := 200, strength_volume := 5000 }

/-- The pipeline state before the C6 counterexample run. -/
def initState : PipelineRun.St :=
  { dailyCommitted := false, workoutsCommitted := false, watermarks := [] }

/-- A concrete Apple daily table: one date with steps but no nutrition row. -/
def appleTable : List (Int × AppleRow) := [(0, { steps := some 100, energy := none })]

/-- A concrete MacroFactor daily table covering a different date. -/
def macroTable : List (Int × MacroRow) :=
  [(1, { calories := some 2000, protein := some 150, fat := none, carbs := some 200 })]

/-- A concrete Strong daily table. -/
def strongTable : List (Int × StrongRow) := [(0, { volume := 5000 }), (2, { volume := 800 })]

/-! # Theorems -/

/-! ## C1: the deduplicator output is an ordered, non-overlapping subset -/

theorem sweep_subset (l : List Sample) :
    ∀ (last : Option Int), ∀ s ∈ sweep l last, s ∈ l := by
  induction l with
  | nil => intro last s hs; simp [sweep] at hs
  | cons a rest ih =>
    intro last s hs
    simp only [sweep] at hs
    by_cases h : acceptRec last a.startDate
    · rw [if_pos h] at hs
      rcases List.mem_cons.mp hs with h1 | h1
      · exact h1 ▸ List.mem_cons_self a rest
      · exact List.mem_cons_of_mem a (ih _ s h1)
    · rw [if_neg h] at hs
      exact List.mem_cons_of_mem a (ih _ s hs)

theorem sweep_start_ge (l : List Sample) (h : ∀ s ∈ l, s.startDate ≤ s.endDate) :
    ∀ (e : Int), ∀ s ∈ sweep l (some e), e ≤ s.startDate := by
  induction l with
  | nil => intro e s hs; simp [sweep] at hs
  | cons a rest ih =>
    intro e s hs
    have hrest : ∀ s ∈ rest, s.startDate ≤ s.endDate :=
      fun s hs => h s (List.mem_cons_of_mem a hs)
    simp only [sweep] at hs
    by_cases hacc : acceptRec (some e) a.startDate
    · rw [if_pos hacc] at hs
      have he : e ≤ a.startDate := of_decide_eq_true hacc
      rcases List.mem_cons.mp hs with h1 | h1
      · exact h1 ▸ he
      · have h2 := ih hrest a.endDate s h1
        have h3 : a.startDate ≤ a.endDate := h a (List.mem_cons_self a rest)
        omega
    · rw [if_neg hacc] at hs
      exact ih hrest e s hs

theorem sweep_pairwise (l : List Sample) (h : ∀ s ∈ l, s.startDate ≤ s.endDate) :
    ∀ (last : Option Int),
      (sweep l last).Pairwise (fun a b => a.endDate ≤ b.startDate) := by
  induction l with
  | nil => intro last; simp [sweep]
  | cons a rest ih =>
    intro last
    have hrest : ∀ s ∈ rest, s.startDate ≤ s.endDate :=
      fun s hs => h s (List.mem_cons_of_mem a hs)
    simp only [sweep]
    by_cases hacc : acceptRec last a.startDate
    · rw [if_pos hacc]
      exact List.pairwise_cons.mpr
        ⟨fun y hy => sweep_start_ge rest hrest a.endDate y hy, ih hrest (some a.endDate)⟩
    · rw [if_neg hacc]
      exact ih hrest last

/-- C1: for every input list of samples each satisfying `start <= end`, the
deduplicator returns a subset of the input that is chronologically ordered and
pairwise non-overlapping: any later accepted sample starts at or after any
earlier accepted sample's end. -/
theorem dedup_subset_ordered_nonoverlapping (records : List Sample)
    (h : ∀ s ∈ records, s.startDate ≤ s.endDate) :
    (∀ s ∈ deduplicate_apple_health_steps records, s ∈ records) ∧
    (deduplicate_apple_health_steps records).Pairwise (fun a b => a.endDate ≤ b.startDate) ∧
    (deduplicate_apple_health_steps records).Pairwise (fun a b => a.startDate ≤ b.startDate) := by
  have hperm := List.perm_insertionSort sampleLE records
  have hmemsort : ∀ s ∈ List.insertionSort sampleLE records, s ∈ records :=
    fun s hs => hperm.mem_iff.mp hs
  have hsorted : ∀ s ∈ List.insertionSort sampleLE records, s.startDate ≤ s.endDate :=
    fun s hs => h s (hmemsort s hs)
  have hsub : ∀ s ∈ deduplicate_apple_health_steps records, s ∈ records :=
    fun s hs => hmemsort s (sweep_subset _ _ s hs)
  have hpw := sweep_pairwise _ hsorted none
  refine ⟨hsub, hpw, List.Pairwise.imp_of_mem ?_ hpw⟩
  intro a b ha hb hab
  have h1 : a.startDate ≤ a.endDate := h a (hsub a ha)
  omega

/-- Witness for C1 at a concrete two-sample input. -/
theorem dedup_subset_ordered_nonoverlapping_witness :
    (∀ s ∈ [phoneSample, watchSample], s.startDate ≤ s.endDate) ∧
    ((∀ s ∈ deduplicate_apple_health_steps [phoneSample, watchSample],
        s ∈ [phoneSample, watchSample]) ∧
      (deduplicate_apple_health_steps [phoneSample, watchSample]).Pairwise
        (fun a b => a.endDate ≤ b.startDate) ∧
      (deduplicate_apple_health_steps [phoneSample, watchSample]).Pairwise
        (fun a b => a.startDate ≤ b.startDate)) :=
  ⟨by decide, dedup_subset_ordered_nonoverlapping [phoneSample, watchSample] (by decide)⟩

/-! ## C2: the overlap scenario keeps the phone sample, not the watch sample -/

/-- C2 (code-bug exhibit): on the spec's own scenario — phone sample
10:00-10:05 value 50, watch sample 10:02-10:08 value 80 — the deduplicator
keeps only the earlier-starting phone sample, so the daily aggregate is 50,
not the 80 the claim (and the function's docstring) promises. -/
theorem dedup_scenario_keeps_phone_sample :
    deduplicate_apple_health_steps [phoneSample, watchSample] = [phoneSample] ∧
    watchSample ∉ deduplicate_apple_health_steps [phoneSample, watchSample] ∧
    aggregate_daily_data
        ((deduplicate_apple_health_steps [phoneSample, watchSample]).map sampleRecord) =
      [(0, 50)] := by
  refine ⟨by decide, by decide, by with_unfolding_all decide⟩

/-! ## C5: daily aggregation buckets, filtering and truncation -/

theorem truncQ_nonneg (q : Rat) (h : 0 ≤ q) : 0 ≤ truncQ q := by
  unfold truncQ
  have hn : 0 ≤ q.num := Rat.num_nonneg.mpr h
  have hd : (0 : Int) ≤ (q.den : Int) := Int.ofNat_nonneg q.den
  exact Int.tdiv_nonneg hn hd

theorem foldl_min_le_init (l : List (Int × Rat)) (a : Int) :
    l.foldl (fun b p => min b p.1) a ≤ a := by
  induction l generalizing a with
  | nil => simp
  | cons c cs ih =>
    simp only [List.foldl_cons]
    exact le_trans (ih _) (min_le_left _ _)

theorem foldl_min_le_mem (l : List (Int × Rat)) (a : Int) :
    ∀ p ∈ l, l.foldl (fun b p => min b p.1) a ≤ p.1 := by
  induction l generalizing a with
  | nil => simp
  | cons c cs ih =>
    intro p hp
    simp only [List.foldl_cons]
    rcases List.mem_cons.mp hp with h | h
    · exact h ▸ le_trans (foldl_min_le_init cs _) (min_le_right _ _)
    · exact ih _ p h

theorem foldl_max_ge_init (l : List (Int × Rat)) (a : Int) :
    a ≤ l.foldl (fun b p => max b p.1) a := by
  induction l generalizing a with
  | nil => simp
  | cons c cs ih =>
    simp only [List.foldl_cons]
    exact le_trans (le_max_left _ _) (ih _)

theorem foldl_max_ge_mem (l : List (Int × Rat)) (a : Int) :
    ∀ p ∈ l, p.1 ≤ l.foldl (fun b p => max b p.1) a := by
  induction l generalizing a with
  | nil => simp
  | cons c cs ih =>
    intro p hp
    simp only [List.foldl_cons]
    rcases List.mem_cons.mp hp with h | h
    · exact h ▸ le_trans (le_max_right _ _) (foldl_max_ge_init cs _)
    · exact ih _ p h

theorem daySum_eq_zero_of_no_mem (records : List ARecord) (d : Int)
    (h : ∀ p ∈ cleanRecords records, p.1 ≠ d) : daySum records d = 0 := by
  unfold daySum
  have : (cleanRecords records).filter (fun p => decide (p.1 = d)) = [] :=
    List.filter_eq_nil_iff.mpr (fun p hp => by simpa using h p hp)
  rw [this]
  simp

theorem mem_aggregate (records : List ARecord) (p : Int × Int) :
    p ∈ aggregate_daily_data records ↔
      0 < daySum records p.1 ∧ p.2 = truncQ (daySum records p.1) := by
  unfold aggregate_daily_data
  cases hc : cleanRecords records with
  | nil =>
    have hz : daySum records p.1 = 0 := by
      unfold daySum; rw [hc]; simp
    simp [hz]
  | cons c cs =>
    obtain ⟨pd, pv⟩ := p
    simp only [List.mem_filterMap, List.mem_range]
    constructor
    · rintro ⟨i, _, hf⟩
      by_cases hpos :
          0 < daySum records (cs.foldl (fun a p => min a p.1) c.1 + Int.ofNat i)
      · rw [if_pos hpos] at hf
        have he := Option.some.inj hf
        injection he with h1 h2
        subst h1
        subst h2
        exact ⟨hpos, rfl⟩
      · rw [if_neg hpos] at hf
        cases hf
    · rintro ⟨hpos, hval⟩
      have hne : daySum records pd ≠ 0 := ne_of_gt hpos
      have hmem : ∃ q ∈ cleanRecords records, q.1 = pd := by
        by_contra hno
        push_neg at hno
        exact hne (daySum_eq_zero_of_no_mem records pd hno)
      obtain ⟨q, hq, hqd⟩ := hmem
      rw [hc] at hq
      set lo := cs.foldl (fun a p => min a p.1) c.1 with hlo
      set hi := cs.foldl (fun a p => max a p.1) c.1 with hhi
      have hlow : lo ≤ pd := by
        rcases List.mem_cons.mp hq with h | h
        · rw [← hqd, h]; exact foldl_min_le_init cs c.1
        · rw [← hqd]; exact foldl_min_le_mem cs c.1 q h
      have hhigh : pd ≤ hi := by
        rcases List.mem_cons.mp hq with h | h
        · rw [← hqd, h]; exact foldl_max_ge_init cs c.1
        · rw [← hqd]; exact foldl_max_ge_mem cs c.1 q h
      refine ⟨(pd - lo).toNat, by omega, ?_⟩
      have hd : lo + Int.ofNat ((pd - lo).toNat) = pd := by
        rw [Int.ofNat_eq_natCast]; omega
      rw [hd, if_pos hpos, hval]

/-- C5 counterexample: a single record with value 1/2 produces the bucket
`(0, 0)`: the `> 0` filter runs on the pre-truncation sum, so after `astype(int)`
the output can contain a bucket with value 0, refuting "no output bucket has
value <= 0". -/
theorem aggregate_zero_value_bucket :
    aggregate_daily_data [fracRecord] = [(0, 0)] ∧
    ¬ (∀ p ∈ aggregate_daily_data [fracRecord], 0 < p.2) := by
  with_unfolding_all decide

/-- C5 (amended): the aggregator buckets each sample by the calendar day of
its end timestamp, ignores missing (NaN) values, sums per day, and keeps a day
exactly when its pre-truncation sum is strictly positive; kept values are the
truncated sums, hence non-negative — but they may be 0 when the sum lies in
(0, 1), so `value >= 0` (not `> 0`) is the invariant. -/
theorem aggregate_daily_props (records : List ARecord) :
    (∀ p ∈ aggregate_daily_data records,
      0 ≤ p.2 ∧ p.2 = truncQ (daySum records p.1) ∧ 0 < daySum records p.1) ∧
    (∀ d : Int, (∃ p ∈ aggregate_daily_data records, p.1 = d) ↔ 0 < daySum records d) := by
  constructor
  · intro p hp
    obtain ⟨hpos, heq⟩ := (mem_aggregate records p).mp hp
    exact ⟨heq ▸ truncQ_nonneg _ (le_of_lt hpos), heq, hpos⟩
  · intro d
    constructor
    · rintro ⟨p, hp, rfl⟩
      exact ((mem_aggregate records p).mp hp).1
    · intro hd
      exact ⟨(d, truncQ (daySum records d)), (mem_aggregate records _).mpr ⟨hd, rfl⟩, rfl⟩

/-- Witness for C5 (amended) at a concrete record list. -/
theorem aggregate_daily_props_witness :
    ((0, 50) ∈ aggregate_daily_data [sampleRecord phoneSample]) ∧
    (0 ≤ ((0, 50) : Int × Int).2 ∧
      ((0, 50) : Int × Int).2 = truncQ (daySum [sampleRecord phoneSample] 0) ∧
      0 < daySum [sampleRecord phoneSample] 0) :=
  ⟨by with_unfolding_all decide,
   (aggregate_daily_props [sampleRecord phoneSample]).1 (0, 50)
     (by with_unfolding_all decide)⟩

/-! ## C3: effort-value precedence in `parse_strong_workouts` -/

/-- C3: every row produced by `parse_strong_workouts` carries the effort value
given by the precedence rule: an explicit strictly positive RPE wins;
otherwise the `Set N RPE = V` match for the row's set order in the first
non-empty note of its (date, exercise) group; otherwise no value — in
particular an explicit RPE of 0 falls through to the note. -/
theorem parse_strong_effort_precedence (rows : List SetRow) (p : ProcRow)
    (hp : p ∈ parse_strong_workouts rows) :
    p.final_rpe =
      effortSpec (groupNote (rows.filter (fun r => decide (setKey r = setKey p.base))))
        p.base.setOrder p.base.rpe := by
  unfold parse_strong_workouts at hp
  rw [List.mem_flatMap] at hp
  obtain ⟨k, _, hpk⟩ := hp
  unfold processGroup at hpk
  rw [List.mem_map] at hpk
  obtain ⟨r, hr, hpr⟩ := hpk
  have hkey : setKey r = k := of_decide_eq_true (List.mem_filter.mp hr).2
  subst hkey
  subst hpr
  cases hrpe : r.rpe with
  | none => simp [effortSpec, hrpe]
  | some v => by_cases hv : 0 < v <;> simp [effortSpec, hrpe, hv]

/-- Witness for C3 at the spec's scenario: explicit RPE 0, note
"Set 2 RPE = 7.5", set order 2 — the extractor returns 7.5. -/
theorem parse_strong_effort_precedence_witness :
    (({ base := scenarioRow, final_rpe := some (15 / 2) } : ProcRow) ∈
        parse_strong_workouts [scenarioRow]) ∧
    ({ base := scenarioRow, final_rpe := some (15 / 2) } : ProcRow).final_rpe =
      effortSpec
        (groupNote ([scenarioRow].filter (fun r => decide (setKey r = setKey scenarioRow))))
        scenarioRow.setOrder scenarioRow.rpe :=
  ⟨by with_unfolding_all decide,
   parse_strong_effort_precedence [scenarioRow] _ (by with_unfolding_all decide)⟩

/-! ## C7: sessions are inserted only when absent and never updated -/

theorem load_apple_decomp (ws : List Workout) : ∀ (tbl : List WorkoutRow),
    ∃ added, load_apple_workouts tbl ws = tbl ++ added ∧
      ∀ r ∈ added, ∀ r0 ∈ tbl,
        ¬(r0.start_date = r.start_date ∧ r0.workout_type = r.workout_type) := by
  induction ws with
  | nil =>
    intro tbl
    exact ⟨[], by simp [load_apple_workouts], by simp⟩
  | cons w ws ih =>
    intro tbl
    by_cases h : tbl.any (fun r => workoutKeyMatch r w) = true
    · have hstep : loadAppleStep tbl w = tbl := by
        unfold loadAppleStep; rw [if_pos h]
      obtain ⟨added, ha1, ha2⟩ := ih tbl
      refine ⟨added, ?_, ha2⟩
      unfold load_apple_workouts at ha1 ⊢
      rw [List.foldl_cons, hstep]
      exact ha1
    · have hstep : loadAppleStep tbl w = insertWorkout tbl w := by
        unfold loadAppleStep; rw [if_neg h]
      obtain ⟨added, ha1, ha2⟩ := ih (insertWorkout tbl w)
      refine ⟨{ workout_id := freshId tbl, start_date := w.start_date, end_date := w.end_date,
                workout_type := w.workout_type, duration_mins := w.duration_mins,
                total_distance := w.total_distance,
                total_energy_burned := w.total_energy_burned } :: added, ?_, ?_⟩
      · unfold load_apple_workouts at ha1 ⊢
        rw [List.foldl_cons, hstep, ha1]
        unfold insertWorkout
        rw [List.append_assoc]
        rfl
      · intro r hr r0 hr0
        rcases List.mem_cons.mp hr with hre | hr'
        · have hfalse : ∀ x ∈ tbl, ¬ workoutKeyMatch x w = true := by
            intro x hx hxm
            exact h (List.any_eq_true.mpr ⟨x, hx, hxm⟩)
          intro hcon
          apply hfalse r0 hr0
          unfold workoutKeyMatch
          rw [hre] at hcon
          simp only [Bool.and_eq_true, decide_eq_true_eq]
          exact hcon
        · exact ha2 r hr' r0 (by
            unfold insertWorkout
            exact List.mem_append_left _ hr0)

theorem load_apple_matches_mono (ws : List Workout) :
    ∀ (tbl : List WorkoutRow) (v : Workout),
      tbl.any (fun r => workoutKeyMatch r v) = true →
      (load_apple_workouts tbl ws).any (fun r => workoutKeyMatch r v) = true := by
  induction ws with
  | nil => intro tbl v h; exact h
  | cons w ws ih =>
    intro tbl v h
    unfold load_apple_workouts
    rw [List.foldl_cons]
    apply ih
    unfold loadAppleStep
    by_cases hw : tbl.any (fun r => workoutKeyMatch r w) = true
    · rw [if_pos hw]; exact h
    · rw [if_neg hw]
      unfold insertWorkout
      rw [List.any_append]
      rw [h]
      rfl

theorem load_apple_covers (ws : List Workout) :
    ∀ (tbl : List WorkoutRow) (w : Workout), w ∈ ws →
      (load_apple_workouts tbl ws).any (fun r => workoutKeyMatch r w) = true := by
  induction ws with
  | nil => intro tbl w h; cases h
  | cons w' ws ih =>
    intro tbl w hw
    rcases List.mem_cons.mp hw with hre | hw'
    · subst hre
      unfold load_apple_workouts
      rw [List.foldl_cons]
      apply load_apple_matches_mono
      unfold loadAppleStep
      by_cases h : tbl.any (fun r => workoutKeyMatch r w) = true
      · rw [if_pos h]; exact h
      · rw [if_neg h]
        unfold insertWorkout
        rw [List.any_append]
        have : workoutKeyMatch
            { workout_id := freshId tbl, start_date := w.start_date, end_date := w.end_date,
              workout_type := w.workout_type, duration_mins := w.duration_mins,
              total_distance := w.total_distance,
              total_energy_burned := w.total_energy_burned } w = true := by
          unfold workoutKeyMatch
          simp
        simp [this]
    · unfold load_apple_workouts
      rw [List.foldl_cons]
      exact ih _ w hw'

theorem load_apple_noop (ws : List Workout) :
    ∀ (tbl : List WorkoutRow),
      (∀ w ∈ ws, tbl.any (fun r => workoutKeyMatch r w) = true) →
      load_apple_workouts tbl ws = tbl := by
  induction ws with
  | nil => intro tbl _; rfl
  | cons w ws ih =>
    intro tbl h
    unfold load_apple_workouts
    rw [List.foldl_cons]
    have hstep : loadAppleStep tbl w = tbl := by
      unfold loadAppleStep
      rw [if_pos (h w (List.mem_cons_self w ws))]
    rw [hstep]
    exact ih tbl (fun v hv => h v (List.mem_cons_of_mem w hv))

/-- C7: an Apple Health session whose (start_date, workout_type) key already
exists in the workouts table is neither re-inserted nor updated — the loader
only ever appends rows whose key was absent from the pre-existing table, and
re-running the loader on the same sessions changes nothing. -/
theorem workouts_insert_only_when_absent (tbl : List WorkoutRow) (ws : List Workout) :
    (∃ added, load_apple_workouts tbl ws = tbl ++ added ∧
      ∀ r ∈ added, ∀ r0 ∈ tbl,
        ¬(r0.start_date = r.start_date ∧ r0.workout_type = r.workout_type)) ∧
    load_apple_workouts (load_apple_workouts tbl ws) ws = load_apple_workouts tbl ws :=
  ⟨load_apple_decomp ws tbl,
   load_apple_noop ws _ (fun w hw => load_apple_covers ws tbl w hw)⟩

/-- Witness for C7 at a concrete table and session list. -/
theorem workouts_insert_only_when_absent_witness :
    (∃ added,
      load_apple_workouts [] [demoWorkout] = [] ++ added ∧
      ∀ r ∈ added, ∀ r0 ∈ ([] : List WorkoutRow),
        ¬(r0.start_date = r.start_date ∧ r0.workout_type = r.workout_type)) ∧
    load_apple_workouts (load_apple_workouts [] [demoWorkout]) [demoWorkout] =
      load_apple_workouts [] [demoWorkout] :=
  workouts_insert_only_when_absent [] [demoWorkout]

/-! ## C9: the daily-summary upsert is a full-replacement, idempotent upsert -/

theorem upsertDaily_nodup (tbl : List DailySummaryRow) (x : DailySummaryRow)
    (h : (tbl.map DailySummaryRow.date).Nodup) :
    ((upsertDaily tbl x).map DailySummaryRow.date).Nodup := by
  unfold upsertDaily
  by_cases hany : tbl.any (fun r => decide (r.date = x.date)) = true
  · rw [if_pos hany]
    have hmap : (tbl.map (fun r => if r.date = x.date then x else r)).map DailySummaryRow.date
        = tbl.map DailySummaryRow.date := by
      rw [List.map_map]
      apply List.map_congr_left
      intro r _
      by_cases hr : r.date = x.date
      · simp [Function.comp, hr]
      · simp [Function.comp, hr]
    rw [hmap]
    exact h
  · rw [if_neg hany, List.map_append]
    refine List.Nodup.append h (by simp) ?_
    intro a ha hb
    simp only [List.map_cons, List.map_nil, List.mem_singleton] at hb
    subst hb
    obtain ⟨r, hr, hrd⟩ := List.mem_map.mp ha
    exact hany (List.any_eq_true.mpr ⟨r, hr, by simp [hrd]⟩)

theorem find?_upsertDaily_self (tbl : List DailySummaryRow) (x : DailySummaryRow) :
    (upsertDaily tbl x).find? (fun r => decide (r.date = x.date)) = some x := by
  unfold upsertDaily
  by_cases hany : tbl.any (fun r => decide (r.date = x.date)) = true
  · rw [if_pos hany, List.find?_map]
    have hcomp : ((fun r : DailySummaryRow => decide (r.date = x.date)) ∘
        (fun r => if r.date = x.date then x else r)) =
        (fun r : DailySummaryRow => decide (r.date = x.date)) := by
      funext r
      by_cases hr : r.date = x.date
      · simp [Function.comp, hr]
      · simp [Function.comp, hr]
    rw [hcomp]
    cases hf : tbl.find? (fun r => decide (r.date = x.date)) with
    | none =>
      rw [List.find?_eq_none] at hf
      obtain ⟨r0, h0m, h0p⟩ := List.any_eq_true.mp hany
      exact absurd h0p (hf r0 h0m)
    | some r1 =>
      have h1 : r1.date = x.date := by
        have := List.find?_some hf
        simpa using this
      simp [h1]
  · rw [if_neg hany, List.find?_append]
    have h1 : tbl.find? (fun r => decide (r.date = x.date)) = none := by
      rw [List.find?_eq_none]
      intro r hr hpr
      exact hany (List.any_eq_true.mpr ⟨r, hr, hpr⟩)
    rw [h1]
    simp [List.find?]

theorem find?_upsertDaily_other (tbl : List DailySummaryRow) (x : DailySummaryRow)
    (d : Int) (hd : d ≠ x.date) :
    (upsertDaily tbl x).find? (fun r => decide (r.date = d)) =
      tbl.find? (fun r => decide (r.date = d)) := by
  unfold upsertDaily
  by_cases hany : tbl.any (fun r => decide (r.date = x.date)) = true
  · rw [if_pos hany, List.find?_map]
    have hcomp : ((fun r : DailySummaryRow => decide (r.date = d)) ∘
        (fun r => if r.date = x.date then x else r)) =
        (fun r : DailySummaryRow => decide (r.date = d)) := by
      funext r
      by_cases hr : r.date = x.date
      · simp [Function.comp, hr]
      · simp [Function.comp, hr]
    rw [hcomp]
    cases hf : tbl.find? (fun r => decide (r.date = d)) with
    | none => rfl
    | some r1 =>
      have h1 : r1.date = d := by
        have := List.find?_some hf
        simpa using this
      have hne : ¬ r1.date = x.date := by rw [h1]; exact hd
      simp [hne]
  · rw [if_neg hany, List.find?_append]
    have h2 : ([x].find? (fun r => decide (r.date = d))) = none := by
      have : decide (x.date = d) = false := decide_eq_false (fun h => hd h.symm)
      simp [List.find?, this]
    rw [h2]
    simp

theorem load_data_nodup (rows : List DailySummaryRow) :
    ∀ tbl, (tbl.map DailySummaryRow.date).Nodup →
      ((load_data_to_db tbl rows).map DailySummaryRow.date).Nodup := by
  induction rows with
  | nil => intro tbl h; exact h
  | cons y rows ih =>
    intro tbl h
    unfold load_data_to_db
    rw [List.foldl_cons]
    exact ih _ (upsertDaily_nodup tbl y h)

theorem find?_load_data_other (rows : List DailySummaryRow) :
    ∀ (tbl : List DailySummaryRow) (d : Int), (∀ x ∈ rows, x.date ≠ d) →
      (load_data_to_db tbl rows).find? (fun r => decide (r.date = d)) =
        tbl.find? (fun r => decide (r.date = d)) := by
  induction rows with
  | nil => intro tbl d _; rfl
  | cons y rows ih =>
    intro tbl d h
    unfold load_data_to_db
    rw [List.foldl_cons]
    have h1 := ih (upsertDaily tbl y) d (fun x hx => h x (List.mem_cons_of_mem y hx))
    unfold load_data_to_db at h1
    rw [h1]
    exact find?_upsertDaily_other tbl y d
      (fun he => h y (List.mem_cons_self y rows) he.symm)

theorem find?_load_data_self (rows : List DailySummaryRow) :
    ∀ (tbl : List DailySummaryRow), (rows.map DailySummaryRow.date).Nodup →
      ∀ x ∈ rows, (load_data_to_db tbl rows).find? (fun r => decide (r.date = x.date)) =
        some x := by
  induction rows with
  | nil => intro tbl _ x hx; cases hx
  | cons y rows ih =>
    intro tbl hnd x hx
    have hn : y.date ∉ rows.map DailySummaryRow.date ∧
        (rows.map DailySummaryRow.date).Nodup := by
      rw [List.map_cons] at hnd
      exact List.nodup_cons.mp hnd
    rcases List.mem_cons.mp hx with hre | hx'
    · subst hre
      unfold load_data_to_db
      rw [List.foldl_cons]
      have hother : ∀ z ∈ rows, z.date ≠ x.date := by
        intro z hz he
        exact hn.1 (he ▸ List.mem_map_of_mem DailySummaryRow.date hz)
      have h1 := find?_load_data_other rows (upsertDaily tbl x) x.date hother
      unfold load_data_to_db at h1
      rw [h1]
      exact find?_upsertDaily_self tbl x
    · unfold load_data_to_db
      rw [List.foldl_cons]
      exact ih (upsertDaily tbl y) hn.2 x hx'

theorem eq_of_mem_nodup_dates (tbl : List DailySummaryRow) :
    (tbl.map DailySummaryRow.date).Nodup →
    ∀ r1 ∈ tbl, ∀ r2 ∈ tbl, r1.date = r2.date → r1 = r2 := by
  induction tbl with
  | nil => intro _ r1 h1; cases h1
  | cons a t ih =>
    intro h r1 h1 r2 h2 hd
    rw [List.map_cons] at h
    have hn := List.nodup_cons.mp h
    rcases List.mem_cons.mp h1 with he1 | h1' <;> rcases List.mem_cons.mp h2 with he2 | h2'
    · rw [he1, he2]
    · exfalso
      apply hn.1
      have he : r2.date = a.date := by rw [← hd, he1]
      exact he ▸ List.mem_map_of_mem DailySummaryRow.date h2'
    · exfalso
      apply hn.1
      have he : r1.date = a.date := by rw [hd, he2]
      exact he ▸ List.mem_map_of_mem DailySummaryRow.date h1'
    · exact ih hn.2 r1 h1' r2 h2' hd

theorem upsertDaily_noop (tbl : List DailySummaryRow) (x : DailySummaryRow)
    (hx : x ∈ tbl) (huniq : ∀ r ∈ tbl, r.date = x.date → r = x) :
    upsertDaily tbl x = tbl := by
  unfold upsertDaily
  have hany : tbl.any (fun r => decide (r.date = x.date)) = true :=
    List.any_eq_true.mpr ⟨x, hx, by simp⟩
  rw [if_pos hany]
  have hpt : ∀ r ∈ tbl, (if r.date = x.date then x else r) = r := by
    intro r hr
    by_cases h : r.date = x.date
    · rw [if_pos h]
      exact (huniq r hr h).symm
    · rw [if_neg h]
  calc tbl.map (fun r => if r.date = x.date then x else r) = tbl.map id :=
        List.map_congr_left hpt
    _ = tbl := List.map_id tbl

theorem load_data_noop (rows : List DailySummaryRow) :
    ∀ tbl, (∀ x ∈ rows, x ∈ tbl ∧ ∀ r ∈ tbl, r.date = x.date → r = x) →
      load_data_to_db tbl rows = tbl := by
  induction rows with
  | nil => intro tbl _; rfl
  | cons y rows ih =>
    intro tbl h
    unfold load_data_to_db
    rw [List.foldl_cons]
    have hy := h y (List.mem_cons_self y rows)
    rw [upsertDaily_noop tbl y hy.1 hy.2]
    exact ih tbl (fun x hx => h x (List.mem_cons_of_mem y hx))

/-- C9: loading the unified summary upserts by date with full field
replacement: the table keeps distinct dates, every loaded row is stored
exactly as given (looked up by its date), and re-running the identical load
leaves the table unchanged. -/
theorem daily_upsert_idempotent (tbl rows : List DailySummaryRow)
    (ht : (tbl.map DailySummaryRow.date).Nodup)
    (hx : (rows.map DailySummaryRow.date).Nodup) :
    ((load_data_to_db tbl rows).map DailySummaryRow.date).Nodup ∧
    (∀ x ∈ rows,
      (load_data_to_db tbl rows).find? (fun r => decide (r.date = x.date)) = some x) ∧
    load_data_to_db (load_data_to_db tbl rows) rows = load_data_to_db tbl rows := by
  have hnd := load_data_nodup rows tbl ht
  have hfind := find?_load_data_self rows tbl hx
  refine ⟨hnd, hfind, ?_⟩
  apply load_data_noop
  intro x hxr
  have hf := hfind x hxr
  have hmem : x ∈ load_data_to_db tbl rows := List.mem_of_find?_eq_some hf
  refine ⟨hmem, ?_⟩
  intro r hr hrd
  exact eq_of_mem_nodup_dates _ hnd r hr x hmem hrd

/-- Witness for C9 at a concrete table and row list. -/
theorem daily_upsert_idempotent_witness :
    ((([] : List DailySummaryRow)).map DailySummaryRow.date).Nodup ∧
    (([demoSummaryRow].map DailySummaryRow.date).Nodup) ∧
    (((load_data_to_db [] [demoSummaryRow]).map DailySummaryRow.date).Nodup ∧
      (∀ x ∈ [demoSummaryRow],
        (load_data_to_db [] [demoSummaryRow]).find? (fun r => decide (r.date = x.date)) =
          some x) ∧
      load_data_to_db (load_data_to_db [] [demoSummaryRow]) [demoSummaryRow] =
        load_data_to_db [] [demoSummaryRow]) :=
  ⟨by decide, by decide, daily_upsert_idempotent [] [demoSummaryRow] (by decide) (by decide)⟩

/-! ## C8: detail rows are updated by key, inserted only on zero matches -/

theorem upsertDetail_keys_nodup (dt : List DetailRow) (wid : Nat) (s : ProcRow)
    (h : (dt.map detailKey).Nodup) :
    ((upsertDetail dt wid s).map detailKey).Nodup := by
  unfold upsertDetail
  by_cases hany : dt.any (detailMatch wid s) = true
  · rw [if_pos hany]
    have hmap : (dt.map (fun r =>
        if detailMatch wid s r then
          { r with weight := s.base.weight, reps := s.base.reps, rpe := s.final_rpe }
        else r)).map detailKey = dt.map detailKey := by
      rw [List.map_map]
      apply List.map_congr_left
      intro r _
      by_cases hm : detailMatch wid s r = true
      · simp [Function.comp, hm, detailKey]
      · simp [Function.comp, hm]
    rw [hmap]
    exact h
  · rw [if_neg hany, List.map_append]
    refine List.Nodup.append h (by simp) ?_
    intro a ha hb
    simp only [List.map_cons, List.map_nil, List.mem_singleton] at hb
    subst hb
    obtain ⟨r, hr, hrk⟩ := List.mem_map.mp ha
    apply hany
    refine List.any_eq_true.mpr ⟨r, hr, ?_⟩
    unfold detailKey newDetail at hrk
    simp only [Prod.mk.injEq] at hrk
    unfold detailMatch
    simp only [Bool.and_eq_true, decide_eq_true_eq]
    exact ⟨⟨hrk.1, hrk.2.1⟩, hrk.2.2⟩

theorem foldl_upsertDetail_nodup (sets : List ProcRow) :
    ∀ (dt : List DetailRow) (wid : Nat), (dt.map detailKey).Nodup →
      ((sets.foldl (fun d s => upsertDetail d wid s) dt).map detailKey).Nodup := by
  induction sets with
  | nil => intro dt wid h; exact h
  | cons s sets ih =>
    intro dt wid h
    rw [List.foldl_cons]
    exact ih _ wid (upsertDetail_keys_nodup dt wid s h)

theorem loadStrong_keys_nodup (gs : List (Int × List ProcRow)) (wt : List WorkoutRow) :
    ∀ (acc : List DetailRow × Nat), (acc.1.map detailKey).Nodup →
      (((gs.foldl (loadGroupStep wt) acc).1).map detailKey).Nodup := by
  induction gs with
  | nil => intro acc h; exact h
  | cons g gs ih =>
    intro acc h
    rw [List.foldl_cons]
    apply ih
    unfold loadGroupStep
    cases hfind : findSession wt g.1 with
    | none => exact h
    | some wid => exact foldl_upsertDetail_nodup g.2 acc.1 wid h

theorem upsertDetail_length (dt : List DetailRow) (wid : Nat) (s : ProcRow) :
    (upsertDetail dt wid s).length =
      if dt.any (detailMatch wid s) = true then dt.length else dt.length + 1 := by
  unfold upsertDetail
  by_cases hany : dt.any (detailMatch wid s) = true
  · rw [if_pos hany, if_pos hany, List.length_map]
  · rw [if_neg hany, if_neg hany, List.length_append, List.length_cons, List.length_nil]

/-- C8: the Strong loader locates the parent session via `findSession`
(date plus the fixed strength-training type) and upserts each set keyed by
(workout id, exercise name, set order): a new row is appended exactly when the
keyed update matches zero rows, so key-uniqueness of the details table is
preserved by the whole load. -/
theorem strong_details_upsert_unique (wt : List WorkoutRow) (dt : List DetailRow)
    (gs : List (Int × List ProcRow)) (h : (dt.map detailKey).Nodup) :
    (((loadStrongDetails wt dt gs).1).map detailKey).Nodup ∧
    (∀ (d : List DetailRow) (wid : Nat) (s : ProcRow),
      (upsertDetail d wid s).length =
        if ∃ r ∈ d, detailMatch wid s r = true then d.length else d.length + 1) := by
  constructor
  · exact loadStrong_keys_nodup gs wt (dt, 0) h
  · intro d wid s
    rw [upsertDetail_length]
    by_cases hany : d.any (detailMatch wid s) = true
    · rw [if_pos hany, if_pos (List.any_eq_true.mp hany)]
    · rw [if_neg hany, if_neg (fun hex => hany (List.any_eq_true.mpr hex))]

/-- Witness for C8 at a concrete session, detail table and group list. -/
theorem strong_details_upsert_unique_witness :
    ((([] : List DetailRow)).map detailKey).Nodup ∧
    ((((loadStrongDetails [demoStrengthRow] [] (strongGroups [demoProcRow])).1).map
        detailKey).Nodup ∧
      (∀ (d : List DetailRow) (wid : Nat) (s : ProcRow),
        (upsertDetail d wid s).length =
          if ∃ r ∈ d, detailMatch wid s r = true then d.length else d.length + 1)) :=
  ⟨by decide,
   strong_details_upsert_unique [demoStrengthRow] [] (strongGroups [demoProcRow]) (by decide)⟩

/-! ## C10: a Strong group with no matching session is silently skipped -/

/-- C10: when no workouts row matches (date, 'TraditionalStrengthTraining'),
the whole per-date group of sets is skipped: the load of a group list
containing that group returns exactly the same details table and processed
count as the load without it — no insert, no error. -/
theorem strong_group_without_session_skipped (wt : List WorkoutRow) (dt : List DetailRow)
    (gs1 gs2 : List (Int × List ProcRow)) (g : Int × List ProcRow)
    (h : findSession wt g.1 = none) :
    loadStrongDetails wt dt (gs1 ++ g :: gs2) = loadStrongDetails wt dt (gs1 ++ gs2) := by
  unfold loadStrongDetails
  rw [List.foldl_append, List.foldl_append, List.foldl_cons]
  have hstep : ∀ acc, loadGroupStep wt acc g = acc := by
    intro acc
    unfold loadGroupStep
    rw [h]
  rw [hstep]

/-- Witness for C10: a running-only workouts table gives no strength session
at the group's date, so the group of one set is skipped entirely. -/
theorem strong_group_without_session_skipped_witness :
    findSession [demoRunningRow] (300, [orphanProcRow]).1 = none ∧
    loadStrongDetails [demoRunningRow] [] ([] ++ (300, [orphanProcRow]) :: []) =
      loadStrongDetails [demoRunningRow] [] ([] ++ []) :=
  ⟨by decide,
   strong_group_without_session_skipped [demoRunningRow] [] [] [] (300, [orphanProcRow])
     (by decide)⟩

/-! ## C6: what the watermark append actually depends on -/

/-- C6 counterexample: with new files present, a clean merge, and a failing
daily-summary database transaction (caught inside `load_data_to_db`), the run
still records a successful run: the watermark is appended even though the
daily summary was never committed, refuting "on a persistence failure inside a
sub-pipeline's load, the watermark is left untouched". -/
theorem watermark_advanced_despite_persistence_failure :
    PipelineRun.envDbFail.dailyDbFails = true ∧
    PipelineRun.main PipelineRun.envDbFail 7 initState =
      Except.ok { dailyCommitted := false, workoutsCommitted := false, watermarks := [7] } :=
  ⟨rfl, rfl⟩

/-- C6 (amended): the watermark is appended exactly when new files were
detected, the merge stage raised no unhandled exception, and the watermark
insert itself succeeds — database failures inside the sub-pipeline loads are
caught and do not prevent the append; only an unhandled (merge-stage) failure
escapes `main`, and then the watermark is untouched. -/
theorem watermark_advance_characterization (env : PipelineRun.Env) (now : Int)
    (st : PipelineRun.St) :
    (∀ st2, PipelineRun.main env now st = Except.ok st2 →
      st2.watermarks =
        (if env.hasNewFiles = true ∧ env.recordRunDbFails = false
         then st.watermarks ++ [now] else st.watermarks)) ∧
    (∀ e st2, PipelineRun.main env now st = Except.error (e, st2) →
      st2.watermarks = st.watermarks) ∧
    ((∃ e st2, PipelineRun.main env now st = Except.error (e, st2)) ↔
      env.hasNewFiles = true ∧ env.dailyMergeRaises = true) := by
  obtain ⟨hnf, dmr, dsn, ddf, wdn, wdf, rrf⟩ := env
  cases hnf <;> cases dmr <;> cases dsn <;> cases ddf <;> cases wdn <;> cases wdf <;>
    cases rrf <;>
      simp [PipelineRun.main, PipelineRun.process_and_load_daily_summary,
        PipelineRun.load_data_to_db, PipelineRun.process_and_load_workout_details,
        PipelineRun.load_workouts_to_db, PipelineRun.record_successful_run] <;>
      exact ⟨PipelineRun.Failure.unhandled, trivial⟩

/-! ## C4: the daily merger is a full outer join with zero defaults -/

theorem filter_key_of_nodup {β : Type} (r : List (Int × β))
    (hr : (r.map Prod.fst).Nodup) (d : Int) :
    r.filter (fun q => decide (q.1 = d)) = [] ∨
      ∃ b, r.filter (fun q => decide (q.1 = d)) = [(d, b)] := by
  induction r with
  | nil => left; rfl
  | cons q r ih =>
    rw [List.map_cons] at hr
    have hn := List.nodup_cons.mp hr
    by_cases hq : q.1 = d
    · right
      subst hq
      refine ⟨q.2, ?_⟩
      rw [List.filter_cons_of_pos (by simp)]
      have htail : r.filter (fun q' => decide (q'.1 = q.1)) = [] := by
        apply List.filter_eq_nil_iff.mpr
        intro a ha
        simp only [decide_eq_true_eq]
        intro had
        exact hn.1 (had ▸ List.mem_map_of_mem Prod.fst ha)
      rw [htail]
    · rw [List.filter_cons_of_neg (by simp [hq])]
      exact ih hn.2

theorem flatMap_merge_keys {α β : Type} (r : List (Int × β))
    (hr : (r.map Prod.fst).Nodup) (l : List (Int × α)) :
    (l.flatMap (fun p =>
      match r.filter (fun q => decide (q.1 = p.1)) with
      | [] => [(p.1, some p.2, none)]
      | m :: ms => (m :: ms).map (fun q => (p.1, some p.2, some q.2)))).map Prod.fst
    = l.map Prod.fst := by
  induction l with
  | nil => rfl
  | cons p l ih =>
    rw [List.flatMap_cons, List.map_append, ih]
    cases hfil : r.filter (fun q => decide (q.1 = p.1)) with
    | nil => rfl
    | cons m ms =>
      rcases filter_key_of_nodup r hr p.1 with hnil | ⟨b, hb⟩
      · rw [hfil] at hnil; cases hnil
      · rw [hfil] at hb
        injection hb with h1 h2
        subst h1
        subst h2
        rfl

theorem mergeOuter_keys {α β : Type} (l : List (Int × α)) (r : List (Int × β))
    (hr : (r.map Prod.fst).Nodup) :
    (mergeOuter l r).map Prod.fst =
      l.map Prod.fst ++
        (r.map Prod.fst).filter (fun d => !(l.any (fun p => decide (p.1 = d)))) := by
  unfold mergeOuter
  rw [List.map_append]
  congr 1
  · exact flatMap_merge_keys r hr l
  · rw [List.map_map, List.filter_map]
    rfl

theorem mergeOuter_keys_nodup {α β : Type} {l : List (Int × α)} {r : List (Int × β)}
    (hl : (l.map Prod.fst).Nodup) (hr : (r.map Prod.fst).Nodup) :
    ((mergeOuter l r).map Prod.fst).Nodup := by
  rw [mergeOuter_keys l r hr]
  refine List.Nodup.append hl (List.Nodup.filter _ hr) ?_
  intro d hdl hdr
  have hcond := (List.mem_filter.mp hdr).2
  rw [Bool.not_eq_true', List.any_eq_false] at hcond
  obtain ⟨p, hp, hpd⟩ := List.mem_map.mp hdl
  exact hcond p hp (by simp [hpd])

theorem mem_mergeOuter_keys {α β : Type} (l : List (Int × α)) (r : List (Int × β))
    (hr : (r.map Prod.fst).Nodup) (d : Int) :
    d ∈ (mergeOuter l r).map Prod.fst ↔
      d ∈ l.map Prod.fst ∨ d ∈ r.map Prod.fst := by
  rw [mergeOuter_keys l r hr, List.mem_append, List.mem_filter]
  constructor
  · rintro (h | ⟨h, _⟩)
    · exact Or.inl h
    · exact Or.inr h
  · rintro (h | h)
    · exact Or.inl h
    · by_cases hdl : d ∈ l.map Prod.fst
      · exact Or.inl hdl
      · right
        refine ⟨h, ?_⟩
        rw [Bool.not_eq_true', List.any_eq_false]
        intro p hp hpd
        exact hdl (of_decide_eq_true hpd ▸ List.mem_map_of_mem Prod.fst hp)

theorem mem_mergeOuter {α β : Type} (l : List (Int × α)) (r : List (Int × β))
    (x : Int × Option α × Option β) (hx : x ∈ mergeOuter l r) :
    ((∃ a, (x.1, a) ∈ l ∧ x.2.1 = some a) ∨ (x.2.1 = none ∧ x.1 ∉ l.map Prod.fst)) ∧
    ((∃ b, (x.1, b) ∈ r ∧ x.2.2 = some b) ∨ (x.2.2 = none ∧ x.1 ∉ r.map Prod.fst)) := by
  unfold mergeOuter at hx
  rcases List.mem_append.mp hx with h | h
  · rw [List.mem_flatMap] at h
    obtain ⟨p, hp, hxp⟩ := h
    cases hfil : r.filter (fun q => decide (q.1 = p.1)) with
    | nil =>
      rw [hfil] at hxp
      simp only [List.mem_singleton] at hxp
      subst hxp
      constructor
      · left; exact ⟨p.2, hp, rfl⟩
      · right
        refine ⟨rfl, ?_⟩
        intro hmem
        obtain ⟨q, hq, hqd⟩ := List.mem_map.mp hmem
        have hqf : q ∈ r.filter (fun q' => decide (q'.1 = p.1)) :=
          List.mem_filter.mpr ⟨hq, by simp [hqd]⟩
        rw [hfil] at hqf
        cases hqf
    | cons m ms =>
      rw [hfil] at hxp
      rw [List.mem_map] at hxp
      obtain ⟨q, hq, hxq⟩ := hxp
      have hqf : q ∈ r ∧ decide (q.1 = p.1) = true :=
        List.mem_filter.mp (hfil.symm ▸ hq)
      subst hxq
      constructor
      · left; exact ⟨p.2, hp, rfl⟩
      · left
        refine ⟨q.2, ?_, rfl⟩
        have hqd : q.1 = p.1 := of_decide_eq_true hqf.2
        rw [← hqd]
        exact hqf.1
  · rw [List.mem_map] at h
    obtain ⟨q, hq, hxq⟩ := h
    have hq' := List.mem_filter.mp hq
    subst hxq
    constructor
    · right
      refine ⟨rfl, ?_⟩
      intro hmem
      obtain ⟨p, hp, hpd⟩ := List.mem_map.mp hmem
      have hfalse := hq'.2
      rw [Bool.not_eq_true', List.any_eq_false] at hfalse
      exact hfalse p hp (by simp [hpd])
    · left; exact ⟨q.2, hq'.1, rfl⟩

theorem keyval_unique {α : Type} (l : List (Int × α)) (h : (l.map Prod.fst).Nodup)
    {d : Int} {a b : α} (ha : (d, a) ∈ l) (hb : (d, b) ∈ l) : a = b := by
  induction l with
  | nil => cases ha
  | cons p t ih =>
    rw [List.map_cons] at h
    have hn := List.nodup_cons.mp h
    rcases List.mem_cons.mp ha with hea | ha' <;> rcases List.mem_cons.mp hb with heb | hb'
    · rw [← hea] at heb
      injection heb with _ h2
      exact h2.symm
    · exfalso
      apply hn.1
      have hd1 : d ∈ List.map Prod.fst t := List.mem_map_of_mem Prod.fst hb'
      rw [← hea]
      exact hd1
    · exfalso
      apply hn.1
      have hd1 : d ∈ List.map Prod.fst t := List.mem_map_of_mem Prod.fst ha'
      rw [← heb]
      exact hd1
    · exact ih hn.2 ha' hb'

theorem mergeOuter_nil_right {α β : Type} (l : List (Int × α)) :
    mergeOuter l ([] : List (Int × β)) = l.map (fun p => (p.1, some p.2, none)) := by
  unfold mergeOuter
  rw [List.filter_nil, List.map_nil, List.append_nil]
  induction l with
  | nil => rfl
  | cons p l ih =>
    rw [List.flatMap_cons, List.map_cons, ih]
    rfl

theorem unified_eq (apple : List (Int × AppleRow)) (mf : List (Int × MacroRow))
    (strong : List (Int × StrongRow)) :
    get_unified_daily_summary apple mf strong =
      List.insertionSort dateDesc
        ((mergeOuter (mergeOuter apple mf) strong).map mkSummaryRow) := by
  unfold get_unified_daily_summary
  by_cases hmf : mf.isEmpty = true <;> by_cases hst : strong.isEmpty = true
  · have hm := List.isEmpty_iff.mp hmf
    have hs := List.isEmpty_iff.mp hst
    subst hm
    subst hs
    simp [mergeOuter_nil_right, List.map_map]
  · have hm := List.isEmpty_iff.mp hmf
    subst hm
    simp [hst, mergeOuter_nil_right]
  · have hs := List.isEmpty_iff.mp hst
    subst hs
    simp [hmf, mergeOuter_nil_right]
  · simp [hmf, hst]

theorem count_keys_nodup (ks : List Int) (h : ks.Nodup) (d : Int) :
    ks.count d = if d ∈ ks then 1 else 0 := by
  by_cases hd : d ∈ ks
  · rw [if_pos hd]
    exact List.count_eq_one_of_mem h hd
  · rw [if_neg hd]
    exact List.count_eq_zero.mpr hd

/-- C4: the Daily Merger performs a full outer join on calendar date: when
each source table has at most one row per date (the DailyMetricRow invariant),
every date present in at least one source appears exactly once in the merged
output, and every metric missing for a date defaults to zero — a date absent
from the nutrition table gets calories/protein/fat/carbs 0, a date absent from
the activity table gets steps/energy 0, a date absent from the strength table
gets volume 0, and a date with an activity row takes its steps and energy from
that row (its own missing cells defaulting to 0). -/
theorem unified_outer_join (apple : List (Int × AppleRow)) (mf : List (Int × MacroRow))
    (strong : List (Int × StrongRow))
    (ha : (apple.map Prod.fst).Nodup) (hm : (mf.map Prod.fst).Nodup)
    (hs : (strong.map Prod.fst).Nodup) :
    (∀ d : Int,
      ((get_unified_daily_summary apple mf strong).map DailySummaryRow.date).count d =
        if d ∈ apple.map Prod.fst ∨ d ∈ mf.map Prod.fst ∨ d ∈ strong.map Prod.fst
        then 1 else 0) ∧
    (∀ u ∈ get_unified_daily_summary apple mf strong,
      (u.date ∉ mf.map Prod.fst →
        u.calories_kcal = 0 ∧ u.protein_g = 0 ∧ u.fat_g = 0 ∧ u.carbs_g = 0) ∧
      (u.date ∉ apple.map Prod.fst →
        u.total_steps = 0 ∧ u.active_energy_kcal = 0) ∧
      (∀ a, (u.date, a) ∈ apple →
        u.total_steps = (a.steps.map (fun z => (z : Rat))).getD 0 ∧
        u.active_energy_kcal = (a.energy.map (fun z => (z : Rat))).getD 0) ∧
      (u.date ∉ strong.map Prod.fst → u.strength_volume = 0)) := by
  have hnd1 : ((mergeOuter apple mf).map Prod.fst).Nodup := mergeOuter_keys_nodup ha hm
  have hnd2 : ((mergeOuter (mergeOuter apple mf) strong).map Prod.fst).Nodup :=
    mergeOuter_keys_nodup hnd1 hs
  constructor
  · intro d
    rw [unified_eq]
    have hperm :=
      (List.perm_insertionSort dateDesc
        ((mergeOuter (mergeOuter apple mf) strong).map mkSummaryRow)).map
        DailySummaryRow.date
    rw [hperm.count_eq]
    rw [List.map_map]
    have hfn : (DailySummaryRow.date ∘ mkSummaryRow) =
        (Prod.fst :
          (Int × Option (Option AppleRow × Option MacroRow) × Option StrongRow) → Int) :=
      rfl
    rw [hfn, count_keys_nodup _ hnd2 d]
    have hiff : d ∈ (mergeOuter (mergeOuter apple mf) strong).map Prod.fst ↔
        (d ∈ apple.map Prod.fst ∨ d ∈ mf.map Prod.fst ∨ d ∈ strong.map Prod.fst) := by
      rw [mem_mergeOuter_keys _ _ hs d, mem_mergeOuter_keys _ _ hm d, or_assoc]
    simp only [hiff]
  · intro u hu
    rw [unified_eq] at hu
    have hu2 : u ∈ (mergeOuter (mergeOuter apple mf) strong).map mkSummaryRow :=
      ((List.perm_insertionSort dateDesc _).mem_iff).mp hu
    obtain ⟨p, hp, hup⟩ := List.mem_map.mp hu2
    subst hup
    obtain ⟨hA, hS⟩ := mem_mergeOuter _ _ p hp
    refine ⟨?_, ?_, ?_, ?_⟩
    · intro hnotmf
      have hm' : (p.2.1.bind (fun x => x.2)) = none := by
        rcases hA with ⟨pr, hpr, he⟩ | ⟨he, _⟩
        · rw [he]
          obtain ⟨_, hB⟩ := mem_mergeOuter apple mf (p.1, pr) hpr
          rcases hB with ⟨b, hb, he2⟩ | ⟨he2, _⟩
          · exact absurd (List.mem_map_of_mem Prod.fst hb) hnotmf
          · simpa using he2
        · rw [he]; rfl
      simp [mkSummaryRow, hm']
    · intro hnotapple
      have ha' : (p.2.1.bind (fun x => x.1)) = none := by
        rcases hA with ⟨pr, hpr, he⟩ | ⟨he, _⟩
        · rw [he]
          obtain ⟨hB, _⟩ := mem_mergeOuter apple mf (p.1, pr) hpr
          rcases hB with ⟨a', ha2, he2⟩ | ⟨he2, _⟩
          · exact absurd (List.mem_map_of_mem Prod.fst ha2) hnotapple
          · simpa using he2
        · rw [he]; rfl
      constructor
      · simp [mkSummaryRow, ha']
      · simp [mkSummaryRow, ha']
    · intro a hain
      rcases hA with ⟨pr, hpr, he⟩ | ⟨_, hnone⟩
      · obtain ⟨hB, _⟩ := mem_mergeOuter apple mf (p.1, pr) hpr
        rcases hB with ⟨a', ha', he2⟩ | ⟨he2, hnotA⟩
        · have haa : a' = a := keyval_unique apple ha ha' hain
          subst haa
          have he2' : pr.1 = some a' := he2
          constructor
          · simp [mkSummaryRow, he, he2']
          · simp [mkSummaryRow, he, he2']
        · exact absurd (List.mem_map_of_mem Prod.fst hain) hnotA
      · exact absurd
          ((mem_mergeOuter_keys apple mf hm p.1).mpr
            (Or.inl (List.mem_map_of_mem Prod.fst hain))) hnone
    · intro hnotst
      have hstg : p.2.2 = none := by
        rcases hS with ⟨b, hb, he⟩ | ⟨he, _⟩
        · exact absurd (List.mem_map_of_mem Prod.fst hb) hnotst
        · exact he
      simp [mkSummaryRow, hstg]

/-- Witness for C4 at concrete one-row tables: date 0 has activity and
strength data but no nutrition row. -/
theorem unified_outer_join_witness :
    ((appleTable.map Prod.fst).Nodup ∧ (macroTable.map Prod.fst).Nodup ∧
      (strongTable.map Prod.fst).Nodup) ∧
    ((∀ d : Int,
      ((get_unified_daily_summary appleTable macroTable strongTable).map
          DailySummaryRow.date).count d =
        if d ∈ appleTable.map Prod.fst ∨ d ∈ macroTable.map Prod.fst ∨
            d ∈ strongTable.map Prod.fst
        then 1 else 0) ∧
    (∀ u ∈ get_unified_daily_summary appleTable macroTable strongTable,
      (u.date ∉ macroTable.map Prod.fst →
        u.calories_kcal = 0 ∧ u.protein_g = 0 ∧ u.fat_g = 0 ∧ u.carbs_g = 0) ∧
      (u.date ∉ appleTable.map Prod.fst →
        u.total_steps = 0 ∧ u.active_energy_kcal = 0) ∧
      (∀ a, (u.date, a) ∈ appleTable →
        u.total_steps = (a.steps.map (fun z => (z : Rat))).getD 0 ∧
        u.active_energy_kcal = (a.energy.map (fun z => (z : Rat))).getD 0) ∧
      (u.date ∉ strongTable.map Prod.fst → u.strength_volume = 0))) :=
  ⟨⟨by decide, by decide, by decide⟩,
   unified_outer_join appleTable macroTable strongTable (by decide) (by decide) (by decide)⟩

/-- Witness for C6 (amended) at the counterexample environment. -/
theorem watermark_advance_characterization_witness :
    ({ dailyCommitted := false, workoutsCommitted := false,
        watermarks := [7] } : PipelineRun.St).watermarks =
      (if PipelineRun.envDbFail.hasNewFiles = true ∧
          PipelineRun.envDbFail.recordRunDbFails = false
       then initState.watermarks ++ [7] else initState.watermarks) :=
  (watermark_advance_characterization PipelineRun.envDbFail 7 initState).1
    { dailyCommitted := false, workoutsCommitted := false, watermarks := [7] } rfl

end HealthPipeline
